import Mathlib

/-!
Verification of the loader of go-mydumper (`src/common/loader.go`).

The development shallowly embeds the loader's pure data manipulation
(file classification, name derivation, statement splitting) as executable
Lean functions over `List Char` strings, its fallible I/O (file reads and
SQL execution) as functions parametrised by oracles returning `Except`,
and its concurrency (the schema phases followed by the fan-out of
row-data workers) as a small-step transition system whose traces record
the executed statements.

Conventions:
* A Go string is a `List Char` (`Str`); Go byte lengths are modelled by
  the UTF-8 size of the character list.
* `strings.HasSuffix / TrimSuffix / Trim / Split / HasPrefix` are
  re-implemented with their Go semantics (`hasSuffix`, `trimSuffix`,
  `trim`, `split`, `startsWith`); `split` uses a fuel argument so that it
  is structurally recursive (the fuel `s.length + 1` can never run out
  for the non-empty separators used here).
* `conn.Execute` is an oracle `Str → Except ε Unit`, `ReadFile` an oracle
  `Str → Except ε Str`.  The restore functions return the list of
  statements they attempted, the first error (if any) --- `AssertNil`
  aborts the Go process, so no statement after a failure is attempted ---
  and for `restoreTable` the byte count it returns.
-/

namespace GoMydumper

/-- Go strings, represented as their list of characters. -/
abbrev Str := List Char

/-- Go `strings.HasSuffix s suffix`. -/
def hasSuffix (s suffix : Str) : Bool :=
  suffix.isSuffixOf s

/-- Go `strings.TrimSuffix s suffix`: removes the literal `suffix` once, if present. -/
def trimSuffix (s suffix : Str) : Str :=
  if hasSuffix s suffix then s.take (s.length - suffix.length) else s

/-- Go `strings.HasPrefix s pre`. -/
def startsWith (s pre : Str) : Bool :=
  pre.isPrefixOf s

/-- Go `strings.Trim s cutset`: removes all leading and trailing characters
that occur in `cutset` (character-set trimming, not literal-suffix removal). -/
def trim (s cutset : Str) : Str :=
  ((s.dropWhile (cutset.contains ·)).reverse.dropWhile (cutset.contains ·)).reverse

/-- Worker for `split`; `fuel` only forces structural recursion and never
runs out when it starts at `s.length + 1` and the separator is non-empty. -/
def splitAux (sep : Str) : Str → Str → Nat → List Str
  | acc, s, 0 => [acc.reverse ++ s]
  | acc, [], _ + 1 => [acc.reverse]
  | acc, c :: rest, fuel + 1 =>
    if sep.isPrefixOf (c :: rest) then
      acc.reverse :: splitAux sep [] (List.drop sep.length (c :: rest)) fuel
    else
      splitAux sep (c :: acc) rest fuel

/-- Go `strings.Split s sep` for a non-empty separator: splits around every
(leftmost-first) occurrence of `sep`; always returns at least one piece. -/
def split (s sep : Str) : List Str :=
  splitAux sep [] s (s.length + 1)

/-- Byte length of a Go string holding this character sequence (Go's `len`
on a string counts UTF-8 bytes). -/
def utf8Len (s : Str) : Nat :=
  (s.map Char.utf8Size).sum

/-- Go `filepath.Base`: strips trailing slashes, then keeps the part after
the last slash; empty path gives ".", all-slash paths give "/". -/
def baseName (p : Str) : Str :=
  if p = [] then ['.']
  else
    let q := (p.reverse.dropWhile (· = '/')).reverse
    if q = [] then ['/'] else (split q ['/']).getLastD q

/-- `dbSuffix = "-schema-create.sql"` (loader.go line 33). -/
def dbSuffix : Str := "-schema-create.sql".toList

/-- `schemaSuffix = "-schema.sql"` (loader.go line 34). -/
def schemaSuffix : Str := "-schema.sql".toList

/-- `tableSuffix = ".sql"` (loader.go line 35). -/
def tableSuffix : Str := ".sql".toList

/-- The `Files` struct of the loader: the three classified path lists. -/
structure Files where
  databases : List Str
  schemas : List Str
  tables : List Str
deriving DecidableEq, Repr

/-- One entry visited by `filepath.Walk`: its path and whether it is a directory. -/
structure WalkEntry where
  path : Str
  isDir : Bool
deriving DecidableEq, Repr

/-- The body of the walk callback in `loadFiles` (loader.go lines 45-56):
non-directories are classified by suffix, most specific first. -/
def loadStep (files : Files) (e : WalkEntry) : Files :=
  if e.isDir then files
  else if hasSuffix e.path dbSuffix then
    { files with databases := files.databases ++ [e.path] }
  else if hasSuffix e.path schemaSuffix then
    { files with schemas := files.schemas ++ [e.path] }
  else if hasSuffix e.path tableSuffix then
    { files with tables := files.tables ++ [e.path] }
  else files

/-- `loadFiles` (loader.go lines 38-62), as a fold over the entries the
filesystem walk visits, in visit order. -/
def loadFiles (entries : List WalkEntry) : Files :=
  entries.foldl loadStep ⟨[], [], []⟩

/-- The database name logged by `restoreDatabaseSchema` (line 67):
`strings.TrimSuffix(base, dbSuffix)`. -/
def databaseName (base : Str) : Str :=
  trimSuffix base dbSuffix

/-- The separator "." used on stripped base names. -/
def dotSep : Str := ".".toList

/-- The name derived in `restoreTableSchema` (line 83):
`strings.Trim(base, schemaSuffix)` --- character-set trimming. -/
def schemaName (base : Str) : Str :=
  trim base schemaSuffix

/-- The database segment used by `restoreTableSchema` (line 84):
`strings.Split(name, ".")[0]`; `split` never returns `[]`, so the Go
index 0 is total and `headD` is faithful. -/
def schemaDb (base : Str) : Str :=
  (split (schemaName base) dotSep).headD []

/-- The name derived in `restoreTable` (line 107): `strings.Trim(base, tableSuffix)`. -/
def tableName (base : Str) : Str :=
  trim base tableSuffix

/-- `splits` of `restoreTable` (line 108). -/
def tableSplits (base : Str) : List Str :=
  split (tableName base) dotSep

/-- `db := splits[0]` of `restoreTable` (line 109). -/
def tableDb (base : Str) : Str :=
  (tableSplits base).headD []

/-- `tbl := splits[1]` of `restoreTable` (line 110): the access is partial
(Go panics when the index is out of range), hence `Option`. -/
def tableTbl (base : Str) : Option Str :=
  (tableSplits base).get? 1

/-- `part` of `restoreTable` (lines 105, 111-113). -/
def tablePart (base : Str) : Str :=
  if 2 < (tableSplits base).length then (tableSplits base).getD 2 [] else "0".toList

/-- Name derivation as the spec words it: strip the classifying suffix
literally, split on ".", take the first segment as the database name. -/
def specDbOf (base suffix : Str) : Str :=
  (split (trimSuffix base suffix) dotSep).headD []

/-- The `use` statement built by the loader (lines 85, 116). -/
def useStatement (db : Str) : Str :=
  "use `".toList ++ db ++ "`".toList

/-- The statement separator ";\n" (lines 92, 123). -/
def scSep : Str := ";\n".toList

/-- The comment marker checked before executing a chunk (lines 94, 126). -/
def commentMark : Str := "/*".toList

/-- The guard of the execution loops (lines 94, 126):
`!strings.HasPrefix(query, "/*") && query != ""`. -/
def shouldRun (q : Str) : Bool :=
  !startsWith q commentMark && !(q == [])

/-- The statements a file text gives rise to: split on ";\n", keep exactly
the chunks passing `shouldRun` (the success-path execution plan). -/
def planQuerys (data : Str) : List Str :=
  (split data scSep).filter shouldRun

/-- The inner execution loop shared by `restoreTableSchema` and
`restoreTable` (lines 93-98, 125-130): attempts each runnable chunk in
order against the execution oracle; returns the attempted statements and
the first error.  `AssertNil` panics, so the loop stops at the first error. -/
def execQuerys {ε : Type} (exec : Str → Except ε Unit) : List Str → List Str × Option ε
  | [] => ([], none)
  | q :: qs =>
    if shouldRun q then
      match exec q with
      | .error e => ([q], some e)
      | .ok _ =>
        let rest := execQuerys exec qs
        (q :: rest.1, rest.2)
    else execQuerys exec qs

/-- `restoreDatabaseSchema` (lines 64-77): per file, read it and execute
its whole text as one statement; any read or execute failure aborts. -/
def restoreDatabaseSchema {ε : Type} (read : Str → Except ε Str)
    (exec : Str → Except ε Unit) : List Str → List Str × Option ε
  | [] => ([], none)
  | db :: dbs =>
    match read db with
    | .error e => ([], some e)
    | .ok data =>
      match exec data with
      | .error e => ([data], some e)
      | .ok _ =>
        let rest := restoreDatabaseSchema read exec dbs
        (data :: rest.1, rest.2)

/-- `restoreTableSchema` (lines 79-101): per file, execute `use` for the
derived database, read the file, run the split statements; any failure
aborts the whole loop. -/
def restoreTableSchema {ε : Type} (read : Str → Except ε Str)
    (exec : Str → Except ε Unit) : List Str → List Str × Option ε
  | [] => ([], none)
  | schema :: rest =>
    let u := useStatement (schemaDb (baseName schema))
    match exec u with
    | .error e => ([u], some e)
    | .ok _ =>
      match read schema with
      | .error e => ([u], some e)
      | .ok data =>
        let r := execQuerys exec (split data scSep)
        match r.2 with
        | some e => (u :: r.1, some e)
        | none =>
          let r2 := restoreTableSchema read exec rest
          (u :: r.1 ++ r2.1, r2.2)

/-- `restoreTable` (lines 103-133): execute `use` for the derived database,
read the file, record `bytes = len(sql)`, run the split statements;
returns (attempted statements, first error, bytes). -/
def restoreTable {ε : Type} (read : Str → Except ε Str)
    (exec : Str → Except ε Unit) (table : Str) : List Str × Option ε × Nat :=
  let u := useStatement (tableDb (baseName table))
  match exec u with
  | .error e => ([u], some e, 0)
  | .ok _ =>
    match read table with
    | .error e => ([u], some e, 0)
    | .ok data =>
      let bytes := utf8Len data
      let r := execQuerys exec (split data scSep)
      (u :: r.1, r.2, bytes)

/-- A statement's attempted execution succeeded and all before it did:
the shape a failing unit of work leaves behind (claim C8): the plan
decomposes as `pre ++ q :: rest`, exactly `pre ++ [q]` was attempted,
everything in `pre` succeeded and `q` failed; `rest` was never reached. -/
def AbortsAt {ε : Type} (exec : Str → Except ε Unit) (plan trace : List Str) (e : ε) : Prop :=
  ∃ pre q rest, plan = pre ++ q :: rest ∧ trace = pre ++ [q] ∧
    (∀ p ∈ pre, exec p = .ok ()) ∧ exec q = .error e

/-- The element-wise swap of the shuffle loop (line 155):
`tables[i], tables[j] = tables[j], tables[i]`; in the loader the indices
are always in range. -/
def swapGo {α : Type} (l : List α) (i j : Nat) : List α :=
  if hi : i < l.length then
    if hj : j < l.length then (l.set i l[j]).set j l[i]
    else l
  else l

/-- The shuffle loop (lines 152-156): for `i` from 0 to `len-1`, swap
position `i` with position `choice i` (in Go, `rand.Intn(i+1)`). -/
def shuffle {α : Type} (l : List α) (choice : Nat → Nat) : List α :=
  (List.range l.length).foldl (fun acc i => swapGo acc i (choice i)) l

/-- Unsigned 64-bit wrapping addition: `atomic.AddUint64` (line 170). -/
def addU64 (a r : Nat) : Nat :=
  (a + r) % 2 ^ 64

/-- The successive values of the shared `bytes` counter, starting from
`acc`, as each completing worker adds its returned byte count. -/
def counterTrace (acc : Nat) : List Nat → List Nat
  | [] => [acc]
  | r :: rs => acc :: counterTrace (addU64 acc r) rs

/-- Events recorded by the orchestration model: one per executed statement,
tagged by which phase issued it. -/
inductive Ev where
  | dbEv (sql : Str)
  | schemaEv (sql : Str)
  | rowEv (sql : Str)
deriving DecidableEq, Repr

/-- Whether an event is a row-data statement. -/
def Ev.isRow : Ev → Bool
  | .rowEv _ => true
  | _ => false

/-- Driver instructions of the orchestration model: the sequential
`Loader` body (lines 142-172) executes schema statements itself and then
spawns one worker (goroutine) per table file. -/
inductive Instr where
  | execDb (sql : Str)
  | execSchema (sql : Str)
  | spawn (stmts : List Str)
deriving DecidableEq, Repr

/-- Whether an instruction spawns a worker. -/
def Instr.isSpawn : Instr → Bool
  | .spawn _ => true
  | _ => false

/-- Schema-phase events an instruction list will emit (spawns emit none). -/
def schemaEvents : List Instr → List Ev
  | [] => []
  | .execDb s :: is => .dbEv s :: schemaEvents is
  | .execSchema s :: is => .schemaEv s :: schemaEvents is
  | .spawn _ :: is => schemaEvents is

/-- Phases 1-2 of `Loader` (lines 142-150), compiled to driver
instructions: every database file's text as one statement, then per schema
file its `use` statement and its split statements. -/
def schemaPhase (files : Files) (content : Str → Str) : List Instr :=
  files.databases.map (fun p => .execDb (content p))
  ++ files.schemas.flatMap (fun p =>
      .execSchema (useStatement (schemaDb (baseName p)))
        :: (planQuerys (content p)).map .execSchema)

/-- Phase 4 of `Loader` (lines 161-172): one `spawn` per table file, in
dispatch order, carrying the worker's statements (`use` then the file's
split statements). -/
def spawnPhase (content : Str → Str) (order : List Str) : List Instr :=
  order.map (fun p =>
    .spawn (useStatement (tableDb (baseName p)) :: planQuerys (content p)))

/-- The driver program of one `Loader` run: schema phases strictly before
worker dispatch, as in the Go source order. -/
def loaderProgram (files : Files) (content : Str → Str) (order : List Str) : List Instr :=
  schemaPhase files content ++ spawnPhase content order

/-- A state of the orchestration model: remaining driver instructions,
the spawned workers' remaining statements, and the executed trace. -/
structure OState where
  instrs : List Instr
  workers : List (List Str)
  trace : List Ev
deriving DecidableEq, Repr

/-- One scheduler step: the driver executes its next instruction, or any
spawned worker executes its next statement. -/
inductive OStep : OState → OState → Prop where
  | execDb (s : Str) (is : List Instr) (ws : List (List Str)) (tr : List Ev) :
      OStep ⟨.execDb s :: is, ws, tr⟩ ⟨is, ws, tr ++ [.dbEv s]⟩
  | execSchema (s : Str) (is : List Instr) (ws : List (List Str)) (tr : List Ev) :
      OStep ⟨.execSchema s :: is, ws, tr⟩ ⟨is, ws, tr ++ [.schemaEv s]⟩
  | spawn (q : List Str) (is : List Instr) (ws : List (List Str)) (tr : List Ev) :
      OStep ⟨.spawn q :: is, ws, tr⟩ ⟨is, ws ++ [q], tr⟩
  | work (is : List Instr) (w1 : List (List Str)) (q : Str) (qs : List Str)
      (w2 : List (List Str)) (tr : List Ev) :
      OStep ⟨is, w1 ++ (q :: qs) :: w2, tr⟩ ⟨is, w1 ++ qs :: w2, tr ++ [.rowEv q]⟩

/-- States reachable from the start of a driver program, under any
interleaving of the driver and the spawned workers. -/
def Reach (p : List Instr) (st : OState) : Prop :=
  Relation.ReflTransGen OStep ⟨p, [], []⟩ st

/-- Modelled from the spec: Go `time.Ticker` semantics, missing from
`src/` (spec section 9: `Stop` prevents future ticks but does not close
the ticker's channel). -/
structure TickerChan where
  closed : Bool
  delivering : Bool
deriving DecidableEq, Repr

/-- `time.NewTicker` (line 174): delivering ticks, channel not closed. -/
def TickerChan.newTicker : TickerChan :=
  { closed := false, delivering := true }

/-- Modelled from the spec: `Ticker.Stop` stops deliveries and leaves the
channel unclosed. -/
def TickerChan.stop (t : TickerChan) : TickerChan :=
  { t with delivering := false }

/-- What a goroutine waiting on the ticker's channel does next. -/
inductive LoopWait where
  | receives
  | terminates
  | blocksForever
deriving DecidableEq, Repr

/-- Modelled from the spec: a `for range ch` loop receives if a value will
be delivered, terminates if the channel is closed, and otherwise stays
blocked on the channel forever. -/
def rangeWaitOutcome (t : TickerChan) : LoopWait :=
  if t.delivering then .receives
  else if t.closed then .terminates
  else .blocksForever

/-- The loader's shutdown path (lines 174-187): after `wg.Wait()` the
deferred `tick.Stop()` runs; this is the ticker state the reporter
goroutine's `for range tick.C` then waits on. -/
def loaderReporterAfterStop : LoopWait :=
  rangeWaitOutcome (TickerChan.stop TickerChan.newTicker)

/-! Concrete inputs used by witnesses and counterexamples. -/

/-- The file set of the spec's classification example (section 8). -/
def exEntries : List WalkEntry :=
  [⟨"a-schema-create.sql".toList, false⟩, ⟨"a.b-schema.sql".toList, false⟩,
   ⟨"a.b.sql".toList, false⟩, ⟨"a.b.1.sql".toList, false⟩, ⟨"readme.txt".toList, false⟩]

/-- The database-schema file of the classification example. -/
def exPath : Str := "a-schema-create.sql".toList

/-- A database-schema base name whose database name ("sa") is made of
characters of the suffix string. -/
def c10Base : Str := "sa-schema-create.sql".toList

/-- A table-schema base name whose database name ("sa") is made of
characters of the cutset `schemaSuffix`. -/
def c2SchemaBase : Str := "sa.t1-schema.sql".toList

/-- A row-data base name whose database name ("sales") starts with a
character of the cutset `tableSuffix`. -/
def c2TableBase : Str := "sales.orders.sql".toList

/-- A row-data base name with two dot-separated segments after literal
suffix removal, the second of which ends in characters of the cutset. -/
def c3Base : Str := "a.l.sql".toList

/-- A three-element table list for the shuffle witness. -/
def w4 : List Str := [['a'], ['b'], ['c']]

/-- A one-statement file text. -/
def wx : Str := "x".toList

/-- A content map giving every path the one-statement text `wx`. -/
def wCon : Str → Str := fun _ => wx

/-- A database-schema path for the ordering witness. -/
def wDbPath : Str := "d-schema-create.sql".toList

/-- A table-schema path for the ordering witness. -/
def wSchemaPath : Str := "d.t-schema.sql".toList

/-- A row-data path for the witnesses. -/
def wTablePath : Str := "d.t.sql".toList

/-- The classified file set of the ordering witness. -/
def wFiles : Files := ⟨[wDbPath], [wSchemaPath], []⟩

/-- The dispatch order of the ordering witness. -/
def wOrder : List Str := [wTablePath]

/-- The `use` statement both derivations produce for the witness paths. -/
def wUse : Str := "use `d`".toList

/-- The state reached in the ordering witness after the three schema
statements, the spawn, and one worker step. -/
def wSt : OState :=
  ⟨[], [[wx]], [.dbEv wx, .schemaEv wUse, .schemaEv wx, .rowEv wUse]⟩

/-- A four-chunk file text: a statement, a comment chunk, an empty chunk,
and a second statement. -/
def wText : Str := "A;\n/*c*/;\n;\nB".toList

/-- Content map giving every path the text `wText`. -/
def wTextF : Str → Str := fun _ => wText

/-- The statement of `wText` that the failing oracle rejects. -/
def wBad : Str := "B".toList

/-- A read oracle that returns `wText` for every path. -/
def wRead : Str → Except Unit Str := fun _ => .ok wText

/-- An execution oracle that accepts every statement. -/
def wExec : Str → Except Unit Unit := fun _ => .ok ()

/-- An execution oracle that rejects exactly the statement `wBad`. -/
def wFailExec : Str → Except Unit Unit :=
  fun q => if q == wBad then .error () else .ok ()

/-- Invariant of the orchestration model: the driver's remaining program
is a suffix of the whole program, the trace is a prefix of the program's
schema events followed by row events only, the schema events still to be
emitted are the rest of that prefix, and once a worker exists or a row
event happened, every schema event has been emitted. -/
def OInv (p : List Instr) (st : OState) : Prop :=
  ∃ k m rows,
    st.instrs = p.drop k
    ∧ st.trace = (schemaEvents p).take m ++ rows
    ∧ (∀ e ∈ rows, e.isRow = true)
    ∧ schemaEvents st.instrs = (schemaEvents p).drop m
    ∧ ((st.workers ≠ [] ∨ rows ≠ []) → (schemaEvents p).length ≤ m)

/-! Helper lemmas. -/

theorem isSuffixOf_iff_isSuffix {l₁ l₂ : Str} : l₁.isSuffixOf l₂ = true ↔ l₁ <:+ l₂ := by
  rw [List.isSuffixOf, List.isPrefixOf_iff_prefix, List.reverse_prefix]

theorem hasSuffix_append (s suffix : Str) : hasSuffix (s ++ suffix) suffix = true := by
  rw [hasSuffix, isSuffixOf_iff_isSuffix]
  exact List.suffix_append s suffix

theorem trimSuffix_append (s suffix : Str) : trimSuffix (s ++ suffix) suffix = s := by
  rw [trimSuffix, if_pos (hasSuffix_append s suffix), List.length_append,
    Nat.add_sub_cancel, List.take_left]

/-- Claim C10: `restoreDatabaseSchema` derives the logged database name by
removing the literal suffix "-schema-create.sql" once from the end of the
base name (`strings.TrimSuffix`), never by per-character trimming, so a
name made of suffix characters (base "sa-schema-create.sql") comes out
exactly ("sa"). -/
theorem databaseName_literal_suffix :
    (∀ s : Str, databaseName (s ++ dbSuffix) = s)
    ∧ databaseName c10Base = "sa".toList := by
  constructor
  · intro s
    exact trimSuffix_append s dbSuffix
  · decide

/-- Claim C2 (counterexample): the loader derives the `use` database via
`strings.Trim` (character-set trimming), not literal suffix stripping, so
for the table-schema base "sa.t1-schema.sql" it uses database "t1" where
the claim requires the first dot-segment after suffix removal, "sa"; for
the row-data base "sales.orders.sql" it uses "ales" instead of "sales". -/
theorem trim_based_use_db_mismatch :
    schemaDb c2SchemaBase = "t1".toList
    ∧ specDbOf c2SchemaBase schemaSuffix = "sa".toList
    ∧ schemaDb c2SchemaBase ≠ specDbOf c2SchemaBase schemaSuffix
    ∧ tableDb c2TableBase = "ales".toList
    ∧ specDbOf c2TableBase tableSuffix = "sales".toList
    ∧ tableDb c2TableBase ≠ specDbOf c2TableBase tableSuffix := by
  decide

/-- Claim C3 (counterexample): for the row-data base "a.l.sql" the name
after literal removal of ".sql" is "a.l" --- two dot-segments, so the
claim's precondition holds --- but `restoreTable` trims the character set
".sql", leaving "a" with a single segment, so its access to `splits[1]`
(modelled by `tableTbl`) is out of range. -/
theorem tableTbl_out_of_range :
    (split (trimSuffix c3Base tableSuffix) dotSep).length = 2
    ∧ tableTbl c3Base = none := by
  decide

/-- Claim C9 (counterexample): `Loader` shuts the progress reporter down
with `tick.Stop()`, which only stops deliveries and does not close the
channel, so the reporter's `for range tick.C` stays blocked forever
instead of terminating. -/
theorem reporter_loop_leaks :
    loaderReporterAfterStop = LoopWait.blocksForever
    ∧ loaderReporterAfterStop ≠ LoopWait.terminates := by
  decide

theorem loadFiles_foldl (entries : List WalkEntry) (fs : Files) :
    entries.foldl loadStep fs =
      ⟨fs.databases ++ ((entries.filter (fun e => !e.isDir)).map WalkEntry.path).filter
          (fun p => hasSuffix p dbSuffix),
        fs.schemas ++ ((entries.filter (fun e => !e.isDir)).map WalkEntry.path).filter
          (fun p => !hasSuffix p dbSuffix && hasSuffix p schemaSuffix),
        fs.tables ++ ((entries.filter (fun e => !e.isDir)).map WalkEntry.path).filter
          (fun p => !hasSuffix p dbSuffix && !hasSuffix p schemaSuffix
            && hasSuffix p tableSuffix)⟩ := by
  induction entries generalizing fs with
  | nil => simp
  | cons e es ih =>
    simp only [List.foldl_cons, ih]
    unfold loadStep
    by_cases hd : e.isDir
    · simp [hd]
    · by_cases h1 : hasSuffix e.path dbSuffix
      · simp [hd, h1]
      · by_cases h2 : hasSuffix e.path schemaSuffix
        · simp [hd, h1, h2]
        · by_cases h3 : hasSuffix e.path tableSuffix <;> simp [hd, h1, h2, h3]

/-- Claim C1: the catalog walk classifies every regular file by suffix,
most specific first --- "-schema-create.sql" into `databases`, else
"-schema.sql" into `schemas`, else ".sql" into `tables`, else dropped ---
in visit order, and no path lands in two of the three sequences. -/
theorem loadFiles_classification (entries : List WalkEntry) :
    ((loadFiles entries).databases
      = ((entries.filter (fun e => !e.isDir)).map WalkEntry.path).filter
          (fun p => hasSuffix p dbSuffix))
    ∧ ((loadFiles entries).schemas
      = ((entries.filter (fun e => !e.isDir)).map WalkEntry.path).filter
          (fun p => !hasSuffix p dbSuffix && hasSuffix p schemaSuffix))
    ∧ ((loadFiles entries).tables
      = ((entries.filter (fun e => !e.isDir)).map WalkEntry.path).filter
          (fun p => !hasSuffix p dbSuffix && !hasSuffix p schemaSuffix
            && hasSuffix p tableSuffix))
    ∧ ∀ p : Str,
        (p ∈ (loadFiles entries).databases →
          p ∉ (loadFiles entries).schemas ∧ p ∉ (loadFiles entries).tables)
        ∧ (p ∈ (loadFiles entries).schemas → p ∉ (loadFiles entries).tables) := by
  have h := loadFiles_foldl entries ⟨[], [], []⟩
  rw [loadFiles, h]
  simp only [List.nil_append]
  refine ⟨by trivial, by trivial, by trivial,
    fun p => ⟨fun hdb => ⟨fun hs => ?_, fun ht => ?_⟩, fun hs ht => ?_⟩⟩
  · have h1 := (List.mem_filter.mp hdb).2
    have h2 := (List.mem_filter.mp hs).2
    rw [h1] at h2
    simp at h2
  · have h1 := (List.mem_filter.mp hdb).2
    have h2 := (List.mem_filter.mp ht).2
    rw [h1] at h2
    simp at h2
  · have h1 := (List.mem_filter.mp hs).2
    have h2 := (List.mem_filter.mp ht).2
    rcases Bool.and_eq_true .. |>.mp h1 with ⟨-, h1b⟩
    rw [h1b] at h2
    simp at h2

/-- Witness for C1 at the spec's own example file set: the database-schema
file is in `databases` and, by the exactly-one property, in neither of the
other two sequences. -/
theorem loadFiles_classification_witness :
    exPath ∉ (loadFiles exEntries).schemas ∧ exPath ∉ (loadFiles exEntries).tables :=
  ((loadFiles_classification exEntries).2.2.2 exPath).1 (by decide)

theorem set_self_eq {α : Type} :
    ∀ (l : List α) (i : Nat) (h : i < l.length), l.set i l[i] = l
  | _ :: _, 0, _ => rfl
  | a :: t, i + 1, h => by
    have := set_self_eq t i (by simpa using h)
    simp [this]

theorem cons_set_perm {α : Type} :
    ∀ (l : List α) (m : Nat) (hm : m < l.length) (x : α),
      List.Perm (l[m] :: l.set m x) (x :: l)
  | a :: t, 0, _, x => by
    simpa using List.Perm.swap x a t
  | a :: t, m + 1, hm, x => by
    have hm' : m < t.length := by simpa using hm
    have ih := cons_set_perm t m hm' x
    have s1 : List.Perm (t[m] :: a :: t.set m x) (a :: t[m] :: t.set m x) :=
      List.Perm.swap a t[m] (t.set m x)
    have s2 : List.Perm (a :: t[m] :: t.set m x) (a :: x :: t) :=
      List.Perm.cons a ih
    have s3 : List.Perm (a :: x :: t) (x :: a :: t) := List.Perm.swap x a t
    simpa using (s1.trans s2).trans s3

theorem swapGo_perm {α : Type} (l : List α) (i j : Nat) :
    List.Perm (swapGo l i j) l := by
  rw [swapGo]
  by_cases hi : i < l.length
  · rw [dif_pos hi]
    by_cases hj : j < l.length
    · rw [dif_pos hj]
      by_cases hij : i = j
      · subst hij
        rw [List.set_set, set_self_eq l i hi]
      · have hj' : j < (l.set i l[j]).length := by simpa using hj
        have h1 := cons_set_perm (l.set i l[j]) j hj' l[i]
        rw [List.getElem_set_ne (fun h => hij h)] at h1
        have h2 := cons_set_perm l i hi l[j]
        exact (h1.trans h2).cons_inv
    · rw [dif_neg hj]
  · rw [dif_neg hi]

theorem foldl_swap_perm {α : Type} (choice : Nat → Nat) (l : List α) :
    ∀ (idxs : List Nat) (acc : List α), List.Perm acc l →
      List.Perm (idxs.foldl (fun a i => swapGo a i (choice i)) acc) l
  | [], acc, h => h
  | i :: idxs, acc, h =>
    foldl_swap_perm choice l idxs (swapGo acc i (choice i))
      ((swapGo_perm acc i (choice i)).trans h)

/-- Claim C4: for any table list and any sequence of index choices with
`choice i ≤ i` (what `rand.Intn(i+1)` delivers), the in-place shuffle of
`Loader` produces a permutation of the same elements: same multiset, same
length, nothing dropped or duplicated. -/
theorem shuffle_perm (l : List Str) (choice : Nat → Nat)
    (h : ∀ i, i < l.length → choice i ≤ i) :
    List.Perm (shuffle l choice) l ∧ (shuffle l choice).length = l.length := by
  have hp : List.Perm (shuffle l choice) l :=
    foldl_swap_perm choice l (List.range l.length) l (List.Perm.refl l)
  exact ⟨hp, hp.length_eq⟩

/-- Witness for C4: shuffling a three-element list with the choice
sequence 0,0,0 rotates it and is a permutation. -/
theorem shuffle_perm_witness :
    List.Perm (shuffle w4 (fun _ => 0)) w4
    ∧ (shuffle w4 (fun _ => 0)).length = w4.length :=
  shuffle_perm w4 (fun _ => 0) (fun i _ => Nat.zero_le i)

theorem execQuerys_ok {ε : Type} (exec : Str → Except ε Unit) :
    ∀ qs : List Str, (execQuerys exec qs).2 = none →
      (execQuerys exec qs).1 = qs.filter shouldRun
      ∧ ∀ p ∈ (execQuerys exec qs).1, exec p = Except.ok () := by
  intro qs
  induction qs with
  | nil => intro _; exact ⟨rfl, by simp [execQuerys]⟩
  | cons q qs ih =>
    intro h
    by_cases hq : shouldRun q
    · cases hex : exec q with
      | error e =>
        simp only [execQuerys, if_pos hq, hex] at h
        simp at h
      | ok u =>
        cases u
        simp only [execQuerys, if_pos hq, hex] at h ⊢
        obtain ⟨ih1, ih2⟩ := ih h
        refine ⟨?_, ?_⟩
        · rw [List.filter_cons, if_pos hq, ih1]
        · intro p hp
          rcases List.mem_cons.mp hp with rfl | hp'
          · exact hex
          · exact ih2 p hp'
    · simp only [execQuerys, if_neg hq] at h ⊢
      obtain ⟨ih1, ih2⟩ := ih h
      refine ⟨?_, ih2⟩
      rw [List.filter_cons, if_neg hq, ih1]

theorem execQuerys_err {ε : Type} (exec : Str → Except ε Unit) :
    ∀ (qs : List Str) (e : ε), (execQuerys exec qs).2 = some e →
      AbortsAt exec (qs.filter shouldRun) (execQuerys exec qs).1 e := by
  intro qs
  induction qs with
  | nil => intro e h; simp [execQuerys] at h
  | cons q qs ih =>
    intro e h
    by_cases hq : shouldRun q
    · cases hex : exec q with
      | error e2 =>
        simp only [execQuerys, if_pos hq, hex] at h ⊢
        obtain rfl : e2 = e := by simpa using h
        exact ⟨[], q, qs.filter shouldRun, by simp [List.filter_cons, hq],
          by simp, by simp, hex⟩
      | ok u =>
        cases u
        simp only [execQuerys, if_pos hq, hex] at h ⊢
        obtain ⟨pre, qq, rest, h1, h2, h3, h4⟩ := ih e h
        refine ⟨q :: pre, qq, rest, ?_, ?_, ?_, h4⟩
        · rw [List.filter_cons, if_pos hq, h1, List.cons_append]
        · rw [h2, List.cons_append]
        · intro p hp
          rcases List.mem_cons.mp hp with rfl | hp'
          · exact hex
          · exact h3 p hp'
    · simp only [execQuerys, if_neg hq] at h ⊢
      rw [List.filter_cons, if_neg hq]
      exact ih e h

theorem AbortsAt.prepend {ε : Type} {exec : Str → Except ε Unit} {plan trace : List Str}
    {e : ε} (done : List Str) (hdone : ∀ p ∈ done, exec p = Except.ok ())
    (h : AbortsAt exec plan trace e) :
    AbortsAt exec (done ++ plan) (done ++ trace) e := by
  obtain ⟨pre, q, rest, h1, h2, h3, h4⟩ := h
  exact ⟨done ++ pre, q, rest, by rw [h1, List.append_assoc],
    by rw [h2, List.append_assoc],
    fun p hp => (List.mem_append.mp hp).elim (hdone p) (h3 p), h4⟩

theorem AbortsAt.extend {ε : Type} {exec : Str → Except ε Unit} {plan trace : List Str}
    {e : ε} (more : List Str) (h : AbortsAt exec plan trace e) :
    AbortsAt exec (plan ++ more) trace e := by
  obtain ⟨pre, q, rest, h1, h2, h3, h4⟩ := h
  exact ⟨pre, q, rest ++ more, by rw [h1]; simp, h2, h3, h4⟩

theorem restoreDatabaseSchema_err {ε : Type} (read : Str → Except ε Str)
    (exec : Str → Except ε Unit) (content : Str → Str) :
    ∀ dbs : List Str, (∀ db ∈ dbs, read db = Except.ok (content db)) →
      ∀ e, (restoreDatabaseSchema read exec dbs).2 = some e →
        AbortsAt exec (dbs.map content) (restoreDatabaseSchema read exec dbs).1 e := by
  intro dbs
  induction dbs with
  | nil => intro _ e h; simp [restoreDatabaseSchema] at h
  | cons db dbs ih =>
    intro hread e h
    have hdb := hread db (List.mem_cons_self db dbs)
    cases hex : exec (content db) with
    | error e2 =>
      simp only [restoreDatabaseSchema, hdb, hex] at h ⊢
      obtain rfl : e2 = e := by simpa using h
      exact ⟨[], content db, dbs.map content, by simp, by simp, by simp, hex⟩
    | ok u =>
      cases u
      simp only [restoreDatabaseSchema, hdb, hex] at h ⊢
      have ih' := ih (fun d hd => hread d (List.mem_cons_of_mem db hd)) e h
      have hpre : ∀ p ∈ [content db], exec p = Except.ok () := by
        intro p hp
        rw [List.mem_singleton.mp hp]
        exact hex
      simpa using AbortsAt.prepend [content db] hpre ih'

theorem restoreTableSchema_err {ε : Type} (read : Str → Except ε Str)
    (exec : Str → Except ε Unit) (content : Str → Str) :
    ∀ schemas : List Str, (∀ s ∈ schemas, read s = Except.ok (content s)) →
      ∀ e, (restoreTableSchema read exec schemas).2 = some e →
        AbortsAt exec
          (schemas.flatMap (fun s =>
            useStatement (schemaDb (baseName s)) :: planQuerys (content s)))
          (restoreTableSchema read exec schemas).1 e := by
  intro schemas
  induction schemas with
  | nil => intro _ e h; simp [restoreTableSchema] at h
  | cons s rest ih =>
    intro hread e h
    have hs := hread s (List.mem_cons_self s rest)
    cases hu : exec (useStatement (schemaDb (baseName s))) with
    | error e2 =>
      simp only [restoreTableSchema, hu] at h ⊢
      obtain rfl : e2 = e := by simpa using h
      exact ⟨[], useStatement (schemaDb (baseName s)),
        planQuerys (content s) ++ rest.flatMap (fun s =>
          useStatement (schemaDb (baseName s)) :: planQuerys (content s)),
        by simp, by simp, by simp, hu⟩
    | ok u =>
      cases u
      simp only [restoreTableSchema, hu, hs] at h ⊢
      cases hq2 : (execQuerys exec (split (content s) scSep)).2 with
      | some e2 =>
        simp only [hq2] at h ⊢
        have he : e2 = e := by simpa using h
        rw [he] at hq2
        have habort := execQuerys_err exec (split (content s) scSep) e hq2
        have hpre : ∀ p ∈ [useStatement (schemaDb (baseName s))], exec p = Except.ok () := by
          intro p hp
          rw [List.mem_singleton.mp hp]
          exact hu
        have h2 := AbortsAt.extend
          (rest.flatMap (fun s =>
            useStatement (schemaDb (baseName s)) :: planQuerys (content s)))
          (AbortsAt.prepend [useStatement (schemaDb (baseName s))] hpre habort)
        simpa [planQuerys] using h2
      | none =>
        simp only [hq2] at h ⊢
        have ih' := ih (fun d hd => hread d (List.mem_cons_of_mem s hd)) e h
        obtain ⟨hq1, hqall⟩ := execQuerys_ok exec (split (content s) scSep) hq2
        have hpre : ∀ p ∈ useStatement (schemaDb (baseName s))
            :: (execQuerys exec (split (content s) scSep)).1, exec p = Except.ok () := by
          intro p hp
          rcases List.mem_cons.mp hp with rfl | hp'
          · exact hu
          · exact hqall p hp'
        have h2 := AbortsAt.prepend
          (useStatement (schemaDb (baseName s))
            :: (execQuerys exec (split (content s) scSep)).1) hpre ih'
        simpa [planQuerys, hq1] using h2

theorem restoreTable_err {ε : Type} (read : Str → Except ε Str)
    (exec : Str → Except ε Unit) (content : Str → Str) (t : Str)
    (hread : read t = Except.ok (content t)) (e : ε)
    (h : (restoreTable read exec t).2.1 = some e) :
    AbortsAt exec (useStatement (tableDb (baseName t)) :: planQuerys (content t))
      (restoreTable read exec t).1 e := by
  cases hu : exec (useStatement (tableDb (baseName t))) with
  | error e2 =>
    simp only [restoreTable, hu] at h ⊢
    obtain rfl : e2 = e := by simpa using h
    exact ⟨[], useStatement (tableDb (baseName t)), planQuerys (content t),
      by simp, by simp, by simp, hu⟩
  | ok u =>
    cases u
    simp only [restoreTable, hu, hread] at h ⊢
    have habort := execQuerys_err exec (split (content t) scSep) e h
    have hpre : ∀ p ∈ [useStatement (tableDb (baseName t))], exec p = Except.ok () := by
      intro p hp
      rw [List.mem_singleton.mp hp]
      exact hu
    simpa [planQuerys] using
      AbortsAt.prepend [useStatement (tableDb (baseName t))] hpre habort

theorem restoreTableSchema_single_ok {ε : Type} (read : Str → Except ε Str)
    (exec : Str → Except ε Unit) (schema : Str) (content : Str)
    (hread : read schema = Except.ok content)
    (hok : (restoreTableSchema read exec [schema]).2 = none) :
    (restoreTableSchema read exec [schema]).1
      = useStatement (schemaDb (baseName schema))
        :: (split content scSep).filter shouldRun := by
  cases hu : exec (useStatement (schemaDb (baseName schema))) with
  | error e =>
    simp only [restoreTableSchema, hu] at hok
    simp at hok
  | ok u =>
    cases u
    simp only [restoreTableSchema, hu, hread] at hok ⊢
    cases hq2 : (execQuerys exec (split content scSep)).2 with
    | some e2 =>
      simp only [hq2] at hok
      simp [restoreTableSchema] at hok
    | none =>
      simp only [hq2] at hok ⊢
      rw [(execQuerys_ok exec (split content scSep) hq2).1]
      simp [restoreTableSchema]

theorem restoreTable_trace_ok {ε : Type} (read : Str → Except ε Str)
    (exec : Str → Except ε Unit) (t : Str) (content : Str)
    (hread : read t = Except.ok content)
    (hok : (restoreTable read exec t).2.1 = none) :
    (restoreTable read exec t).1
      = useStatement (tableDb (baseName t)) :: (split content scSep).filter shouldRun := by
  cases hu : exec (useStatement (tableDb (baseName t))) with
  | error e =>
    simp only [restoreTable, hu] at hok
    simp at hok
  | ok u =>
    cases u
    simp only [restoreTable, hu, hread] at hok ⊢
    rw [(execQuerys_ok exec (split content scSep) hok).1]

theorem restoreTable_bytes {ε : Type} (read : Str → Except ε Str)
    (exec : Str → Except ε Unit) (t : Str) (content : Str)
    (hread : read t = Except.ok content)
    (hu : exec (useStatement (tableDb (baseName t))) = Except.ok ()) :
    (restoreTable read exec t).2.2 = utf8Len content := by
  simp only [restoreTable, hu, hread]

theorem shouldRun_spec (q : Str) :
    shouldRun q = (decide (q ≠ []) && !startsWith q commentMark) := by
  cases q <;> simp [shouldRun, Bool.and_comm]

/-- Claim C6: both the table-schema restorer and the row-data restorer
split the file text on ";\n" and execute, on the one given connection and
in order of appearance, exactly the chunks that are non-empty and do not
begin with "/*" (each after the phase's `use` statement). -/
theorem statement_split_exec {ε : Type} (read : Str → Except ε Str)
    (exec : Str → Except ε Unit) (schema table c1 c2 : Str)
    (h1 : read schema = Except.ok c1) (h2 : read table = Except.ok c2)
    (hok1 : (restoreTableSchema read exec [schema]).2 = none)
    (hok2 : (restoreTable read exec table).2.1 = none) :
    (restoreTableSchema read exec [schema]).1
      = useStatement (schemaDb (baseName schema))
        :: (split c1 scSep).filter (fun q => decide (q ≠ []) && !startsWith q commentMark)
    ∧ (restoreTable read exec table).1
      = useStatement (tableDb (baseName table))
        :: (split c2 scSep).filter (fun q => decide (q ≠ []) && !startsWith q commentMark) := by
  have hcongr : ∀ l : List Str,
      l.filter shouldRun
        = l.filter (fun q => decide (q ≠ []) && !startsWith q commentMark) :=
    fun l => List.filter_congr (fun x _ => shouldRun_spec x)
  constructor
  · rw [restoreTableSchema_single_ok read exec schema c1 h1 hok1, hcongr]
  · rw [restoreTable_trace_ok read exec table c2 h2 hok2, hcongr]

/-- Witness for C6 at a four-chunk file (statement, comment chunk, empty
chunk, statement) under an all-accepting connection. -/
theorem statement_split_exec_witness :
    (restoreTableSchema wRead wExec [wSchemaPath]).1
      = useStatement (schemaDb (baseName wSchemaPath))
        :: (split wText scSep).filter (fun q => decide (q ≠ []) && !startsWith q commentMark)
    ∧ (restoreTable wRead wExec wTablePath).1
      = useStatement (tableDb (baseName wTablePath))
        :: (split wText scSep).filter
            (fun q => decide (q ≠ []) && !startsWith q commentMark) :=
  statement_split_exec wRead wExec wSchemaPath wTablePath wText wText rfl rfl
    (by decide) (by decide)

/-- Claim C8: in each phase a read error or an execution error is fatal:
the unit of work stops at the failing operation, nothing after it (in that
file or any later file of the phase) is attempted, every statement before
it succeeded exactly once, and the error is reported --- no retry, skip,
or partial-success continuation. -/
theorem fatal_error_policy {ε : Type} (read : Str → Except ε Str)
    (exec : Str → Except ε Unit) (content : Str → Str) (e : ε) :
    (∀ db dbs, read db = Except.error e →
        restoreDatabaseSchema read exec (db :: dbs) = ([], some e))
    ∧ (∀ dbs, (∀ db ∈ dbs, read db = Except.ok (content db)) →
        (restoreDatabaseSchema read exec dbs).2 = some e →
        AbortsAt exec (dbs.map content) (restoreDatabaseSchema read exec dbs).1 e)
    ∧ (∀ schema rest, exec (useStatement (schemaDb (baseName schema))) = Except.ok () →
        read schema = Except.error e →
        restoreTableSchema read exec (schema :: rest)
          = ([useStatement (schemaDb (baseName schema))], some e))
    ∧ (∀ schemas, (∀ s ∈ schemas, read s = Except.ok (content s)) →
        (restoreTableSchema read exec schemas).2 = some e →
        AbortsAt exec
          (schemas.flatMap (fun s =>
            useStatement (schemaDb (baseName s)) :: planQuerys (content s)))
          (restoreTableSchema read exec schemas).1 e)
    ∧ (∀ table, exec (useStatement (tableDb (baseName table))) = Except.ok () →
        read table = Except.error e →
        restoreTable read exec table = ([useStatement (tableDb (baseName table))], some e, 0))
    ∧ (∀ table, read table = Except.ok (content table) →
        (restoreTable read exec table).2.1 = some e →
        AbortsAt exec
          (useStatement (tableDb (baseName table)) :: planQuerys (content table))
          (restoreTable read exec table).1 e) := by
  refine ⟨?_, ?_, ?_, ?_, ?_, ?_⟩
  · intro db dbs h
    simp [restoreDatabaseSchema, h]
  · intro dbs h1 h2
    exact restoreDatabaseSchema_err read exec content dbs h1 e h2
  · intro schema rest hu h
    simp [restoreTableSchema, hu, h]
  · intro schemas h1 h2
    exact restoreTableSchema_err read exec content schemas h1 e h2
  · intro table hu h
    simp [restoreTable, hu, h]
  · intro table h1 h2
    exact restoreTable_err read exec content table h1 e h2

/-- Witness for C8: a row-data file whose second statement is rejected
aborts with exactly the use statement and the first statement executed and
the failing statement attempted last. -/
theorem fatal_error_policy_witness :
    AbortsAt wFailExec
      (useStatement (tableDb (baseName wTablePath)) :: planQuerys (wTextF wTablePath))
      (restoreTable wRead wFailExec wTablePath).1 () :=
  (fatal_error_policy wRead wFailExec wTextF ()).2.2.2.2.2 wTablePath rfl (by decide)

theorem counterTrace_chain :
    ∀ (rs : List Nat) (acc : Nat), acc + rs.sum < 2 ^ 64 →
      List.Chain' (· ≤ ·) (counterTrace acc rs)
      ∧ (counterTrace acc rs).getLast? = some (acc + rs.sum) := by
  intro rs
  induction rs with
  | nil =>
    intro acc _
    exact ⟨List.chain'_singleton acc, by simp [counterTrace]⟩
  | cons r rs ih =>
    intro acc hfit
    have hadd : addU64 acc r = acc + r := by
      apply Nat.mod_eq_of_lt
      calc acc + r ≤ acc + (r + rs.sum) := by
            exact Nat.add_le_add_left (Nat.le_add_right r rs.sum) acc
        _ < 2 ^ 64 := by simpa using hfit
    have hfit' : acc + r + rs.sum < 2 ^ 64 := by
      simpa [Nat.add_assoc] using hfit
    obtain ⟨ihc, ihl⟩ := ih (acc + r) hfit'
    have hshape : ∃ t, counterTrace (acc + r) rs = (acc + r) :: t := by
      cases rs <;> exact ⟨_, rfl⟩
    obtain ⟨t, ht⟩ := hshape
    constructor
    · show List.Chain' (· ≤ ·) (acc :: counterTrace (addU64 acc r) rs)
      rw [hadd, ht]
      rw [ht] at ihc
      exact List.Chain'.cons (Nat.le_add_right acc r) ihc
    · show (acc :: counterTrace (addU64 acc r) rs).getLast? = some (acc + (r + rs.sum))
      rw [hadd, ht]
      rw [ht] at ihl
      rw [List.getLast?_cons_cons]
      rw [ihl]
      congr 1
      omega

/-- Claim C7: the shared byte counter only ever grows (each completing
worker atomically adds the value `restoreTable` returned), so --- as long
as the total fits in 64 bits --- its successive values are monotone and,
once all row-data work has completed in any order, it equals the sum of
the byte lengths of the `tables` files' texts; and `restoreTable` returns
exactly the byte length of its file's text. -/
theorem progress_counter {ε : Type} (content : Str → Str) (tables order : List Str)
    (read : Str → Except ε Str) (exec : Str → Except ε Unit) (t : Str)
    (hperm : List.Perm order tables)
    (hfit : (tables.map (fun p => utf8Len (content p))).sum < 2 ^ 64)
    (hread : read t = Except.ok (content t))
    (huse : exec (useStatement (tableDb (baseName t))) = Except.ok ()) :
    List.Chain' (· ≤ ·) (counterTrace 0 (order.map (fun p => utf8Len (content p))))
    ∧ (counterTrace 0 (order.map (fun p => utf8Len (content p)))).getLast?
        = some ((tables.map (fun p => utf8Len (content p))).sum)
    ∧ (restoreTable read exec t).2.2 = utf8Len (content t) := by
  have hsum : (order.map (fun p => utf8Len (content p))).sum
      = (tables.map (fun p => utf8Len (content p))).sum :=
    (hperm.map (fun p => utf8Len (content p))).sum_eq
  have hfit' : 0 + (order.map (fun p => utf8Len (content p))).sum < 2 ^ 64 := by
    rw [Nat.zero_add, hsum]
    exact hfit
  obtain ⟨hc, hl⟩ := counterTrace_chain (order.map (fun p => utf8Len (content p))) 0 hfit'
  refine ⟨hc, ?_, restoreTable_bytes read exec t (content t) hread huse⟩
  rw [hl, Nat.zero_add, hsum]

/-- Witness for C7 at a single-file table list with the four-chunk text. -/
theorem progress_counter_witness :
    List.Chain' (· ≤ ·) (counterTrace 0 (wOrder.map (fun p => utf8Len (wTextF p))))
    ∧ (counterTrace 0 (wOrder.map (fun p => utf8Len (wTextF p)))).getLast?
        = some ((wOrder.map (fun p => utf8Len (wTextF p))).sum)
    ∧ (restoreTable wRead wExec wTablePath).2.2 = utf8Len (wTextF wTablePath) :=
  progress_counter wTextF wOrder wOrder wRead wExec wTablePath
    (List.Perm.refl wOrder) (by decide) rfl rfl

theorem drop_succ_of_drop_cons {α : Type} {l : List α} {k : Nat} {x : α} {t : List α}
    (h : l.drop k = x :: t) : l.drop (k + 1) = t := by
  have h2 : (l.drop k).drop 1 = t := by rw [h]; rfl
  rwa [List.drop_drop] at h2

theorem take_succ_of_drop_cons {α : Type} {l : List α} {m : Nat} {x : α} {t : List α}
    (h : l.drop m = x :: t) : l.take (m + 1) = l.take m ++ [x] := by
  rw [List.take_add, h]
  rfl

theorem lt_length_of_drop_cons {α : Type} {l : List α} {m : Nat} {x : α} {t : List α}
    (h : l.drop m = x :: t) : m < l.length := by
  by_contra hm
  push_neg at hm
  rw [List.drop_eq_nil_iff.mpr hm] at h
  simp at h

theorem schemaEvents_not_row :
    ∀ l : List Instr, ∀ e ∈ schemaEvents l, e.isRow = false := by
  intro l
  induction l with
  | nil => intro e he; simp [schemaEvents] at he
  | cons i l ih =>
    intro e he
    cases i with
    | execDb s =>
      rcases List.mem_cons.mp he with rfl | he'
      · rfl
      · exact ih e he'
    | execSchema s =>
      rcases List.mem_cons.mp he with rfl | he'
      · rfl
      · exact ih e he'
    | spawn q => exact ih e he

theorem schemaPhase_not_spawn (files : Files) (content : Str → Str) :
    ∀ i ∈ schemaPhase files content, i.isSpawn = false := by
  intro i hi
  rcases List.mem_append.mp hi with h | h
  · obtain ⟨p, hp, rfl⟩ := List.mem_map.mp h
    rfl
  · obtain ⟨p, hp, hmem⟩ := List.mem_flatMap.mp h
    rcases List.mem_cons.mp hmem with rfl | hmem'
    · rfl
    · obtain ⟨qq, hq, rfl⟩ := List.mem_map.mp hmem'
      rfl

theorem spawnPhase_spawn (content : Str → Str) (order : List Str) :
    ∀ i ∈ spawnPhase content order, i.isSpawn = true := by
  intro i hi
  obtain ⟨p, hp, rfl⟩ := List.mem_map.mp hi
  rfl

theorem schemaEvents_eq_nil_of_spawn :
    ∀ l : List Instr, (∀ i ∈ l, i.isSpawn = true) → schemaEvents l = [] := by
  intro l
  induction l with
  | nil => intro _; rfl
  | cons i l ih =>
    intro h
    cases i with
    | execDb s =>
      have := h _ (List.mem_cons_self _ _)
      simp [Instr.isSpawn] at this
    | execSchema s =>
      have := h _ (List.mem_cons_self _ _)
      simp [Instr.isSpawn] at this
    | spawn q =>
      exact ih (fun j hj => h j (List.mem_cons_of_mem _ hj))

theorem drop_spawn_schemaEvents (files : Files) (content : Str → Str) (order : List Str)
    (k : Nat) (q : List Str) (is : List Instr)
    (h : (loaderProgram files content order).drop k = Instr.spawn q :: is) :
    schemaEvents ((loaderProgram files content order).drop k) = [] := by
  rw [loaderProgram] at h ⊢
  set A := schemaPhase files content with hA
  set B := spawnPhase content order with hB
  by_cases hk : k < A.length
  · exfalso
    have hdrop : (A ++ B).drop k = A.drop k ++ B :=
      List.drop_append_of_le_length (Nat.le_of_lt hk)
    have hne : A.drop k ≠ [] := by
      rw [ne_eq, List.drop_eq_nil_iff]
      omega
    obtain ⟨x, t, hx⟩ := List.exists_cons_of_ne_nil hne
    rw [hdrop, hx] at h
    have hxq : x = Instr.spawn q := by
      injection h with h' _
    have hxA : x ∈ A := List.drop_subset k A (by rw [hx]; exact List.mem_cons_self _ _)
    have := schemaPhase_not_spawn files content x hxA
    rw [hxq] at this
    simp [Instr.isSpawn] at this
  · push_neg at hk
    have hdrop : (A ++ B).drop k = B.drop (k - A.length) := by
      have hk2 : k = A.length + (k - A.length) := by omega
      conv_lhs => rw [hk2]
      rw [List.drop_append]
    rw [hdrop]
    exact schemaEvents_eq_nil_of_spawn _
      (fun i hi => spawnPhase_spawn content order i (List.drop_subset _ B hi))

theorem OInv_step (files : Files) (content : Str → Str) (order : List Str)
    (st st' : OState) (hstep : OStep st st')
    (hinv : OInv (loaderProgram files content order) st) :
    OInv (loaderProgram files content order) st' := by
  cases hstep with
  | execDb s is ws tr =>
    obtain ⟨k, m, rows, h1, h2, h3, h4, h5⟩ := hinv
    replace h1 : Instr.execDb s :: is = (loaderProgram files content order).drop k := h1
    replace h2 : tr = (schemaEvents (loaderProgram files content order)).take m ++ rows := h2
    replace h4 : Ev.dbEv s :: schemaEvents is
        = (schemaEvents (loaderProgram files content order)).drop m := h4
    replace h5 : (ws ≠ [] ∨ rows ≠ []) →
        (schemaEvents (loaderProgram files content order)).length ≤ m := h5
    have hm : m < (schemaEvents (loaderProgram files content order)).length :=
      lt_length_of_drop_cons h4.symm
    have hrows : rows = [] := by
      by_contra hr
      exact absurd (h5 (Or.inr hr)) (by omega)
    have hws : ws = [] := by
      by_contra hw
      exact absurd (h5 (Or.inl hw)) (by omega)
    refine ⟨k + 1, m + 1, [], ?_, ?_, ?_, ?_, ?_⟩
    · exact (drop_succ_of_drop_cons h1.symm).symm
    · show tr ++ [Ev.dbEv s]
        = (schemaEvents (loaderProgram files content order)).take (m + 1) ++ []
      rw [take_succ_of_drop_cons h4.symm, h2, hrows, List.append_nil, List.append_nil]
    · intro e he
      simp at he
    · exact (drop_succ_of_drop_cons h4.symm).symm
    · intro hpre
      rcases hpre with hw | hr
      · exact absurd hws hw
      · exact absurd rfl hr
  | execSchema s is ws tr =>
    obtain ⟨k, m, rows, h1, h2, h3, h4, h5⟩ := hinv
    replace h1 : Instr.execSchema s :: is = (loaderProgram files content order).drop k := h1
    replace h2 : tr = (schemaEvents (loaderProgram files content order)).take m ++ rows := h2
    replace h4 : Ev.schemaEv s :: schemaEvents is
        = (schemaEvents (loaderProgram files content order)).drop m := h4
    replace h5 : (ws ≠ [] ∨ rows ≠ []) →
        (schemaEvents (loaderProgram files content order)).length ≤ m := h5
    have hm : m < (schemaEvents (loaderProgram files content order)).length :=
      lt_length_of_drop_cons h4.symm
    have hrows : rows = [] := by
      by_contra hr
      exact absurd (h5 (Or.inr hr)) (by omega)
    have hws : ws = [] := by
      by_contra hw
      exact absurd (h5 (Or.inl hw)) (by omega)
    refine ⟨k + 1, m + 1, [], ?_, ?_, ?_, ?_, ?_⟩
    · exact (drop_succ_of_drop_cons h1.symm).symm
    · show tr ++ [Ev.schemaEv s]
        = (schemaEvents (loaderProgram files content order)).take (m + 1) ++ []
      rw [take_succ_of_drop_cons h4.symm, h2, hrows, List.append_nil, List.append_nil]
    · intro e he
      simp at he
    · exact (drop_succ_of_drop_cons h4.symm).symm
    · intro hpre
      rcases hpre with hw | hr
      · exact absurd hws hw
      · exact absurd rfl hr
  | spawn q is ws tr =>
    obtain ⟨k, m, rows, h1, h2, h3, h4, h5⟩ := hinv
    replace h1 : Instr.spawn q :: is = (loaderProgram files content order).drop k := h1
    replace h2 : tr = (schemaEvents (loaderProgram files content order)).take m ++ rows := h2
    replace h4 : schemaEvents is
        = (schemaEvents (loaderProgram files content order)).drop m := h4
    have hnil : schemaEvents ((loaderProgram files content order).drop k) = [] :=
      drop_spawn_schemaEvents files content order k q is h1.symm
    have hdm : (schemaEvents (loaderProgram files content order)).drop m = [] := by
      rw [← h4]
      have : schemaEvents (Instr.spawn q :: is)
          = schemaEvents ((loaderProgram files content order).drop k) := by rw [h1]
      rw [show schemaEvents is = schemaEvents (Instr.spawn q :: is) from rfl, this, hnil]
    have hlen : (schemaEvents (loaderProgram files content order)).length ≤ m :=
      List.drop_eq_nil_iff.mp hdm
    refine ⟨k + 1, m, rows, ?_, h2, h3, ?_, ?_⟩
    · exact (drop_succ_of_drop_cons h1.symm).symm
    · exact h4
    · intro _
      exact hlen
  | work is w1 q qs w2 tr =>
    obtain ⟨k, m, rows, h1, h2, h3, h4, h5⟩ := hinv
    replace h1 : is = (loaderProgram files content order).drop k := h1
    replace h2 : tr = (schemaEvents (loaderProgram files content order)).take m ++ rows := h2
    replace h4 : schemaEvents is
        = (schemaEvents (loaderProgram files content order)).drop m := h4
    replace h5 : (w1 ++ (q :: qs) :: w2 ≠ [] ∨ rows ≠ []) →
        (schemaEvents (loaderProgram files content order)).length ≤ m := h5
    have hlen : (schemaEvents (loaderProgram files content order)).length ≤ m :=
      h5 (Or.inl (by simp))
    refine ⟨k, m, rows ++ [Ev.rowEv q], h1, ?_, ?_, h4, fun _ => hlen⟩
    · show tr ++ [Ev.rowEv q]
        = (schemaEvents (loaderProgram files content order)).take m
            ++ (rows ++ [Ev.rowEv q])
      rw [h2, List.append_assoc]
    · intro e he
      rcases List.mem_append.mp he with hmem | hmem
      · exact h3 e hmem
      · rw [List.mem_singleton.mp hmem]
        rfl

theorem reach_OInv (files : Files) (content : Str → Str) (order : List Str)
    (st : OState) (h : Reach (loaderProgram files content order) st) :
    OInv (loaderProgram files content order) st := by
  rw [Reach] at h
  induction h with
  | refl =>
    exact ⟨0, 0, [], by simp, by simp, by simp, by simp, by simp⟩
  | tail hsteps hstep ih =>
    exact OInv_step files content order _ _ hstep ih

/-- Claim C5: the schema phases of `Loader` run sequentially before any
worker is spawned, so in every reachable state of any interleaving, once
any row-data statement has executed the trace starts with all schema
statements (database creations and table definitions, in program order),
and everything after them is row-data work. -/
theorem loader_phase_ordering (files : Files) (content : Str → Str) (order : List Str)
    (st : OState) (q : Str) (h : Reach (loaderProgram files content order) st)
    (hq : Ev.rowEv q ∈ st.trace) :
    ∃ rows, st.trace = schemaEvents (loaderProgram files content order) ++ rows
      ∧ ∀ e ∈ rows, Ev.isRow e = true := by
  obtain ⟨k, m, rows, h1, h2, h3, h4, h5⟩ := reach_OInv files content order st h
  rw [h2] at hq
  rcases List.mem_append.mp hq with hmem | hmem
  · have := schemaEvents_not_row (loaderProgram files content order) _
      (List.take_subset m _ hmem)
    simp [Ev.isRow] at this
  · have hrows : rows ≠ [] := List.ne_nil_of_mem hmem
    have hlen := h5 (Or.inr hrows)
    rw [List.take_of_length_le hlen] at h2
    exact ⟨rows, h2, h3⟩

/-- Witness for C5: a concrete run with one database file, one schema
file and one table file, scheduled driver-first then one worker step; the
reached trace is the full schema prefix followed by row work. -/
theorem loader_phase_ordering_witness :
    ∃ rows, wSt.trace = schemaEvents (loaderProgram wFiles wCon wOrder) ++ rows
      ∧ ∀ e ∈ rows, Ev.isRow e = true := by
  refine loader_phase_ordering wFiles wCon wOrder wSt wUse ?_ (by decide)
  rw [Reach]
  have e0 : loaderProgram wFiles wCon wOrder
      = [Instr.execDb wx, Instr.execSchema wUse, Instr.execSchema wx,
          Instr.spawn [wUse, wx]] := by decide
  rw [e0]
  refine Relation.ReflTransGen.head (OStep.execDb wx _ _ _) ?_
  refine Relation.ReflTransGen.head (OStep.execSchema wUse _ _ _) ?_
  refine Relation.ReflTransGen.head (OStep.execSchema wx _ _ _) ?_
  refine Relation.ReflTransGen.head (OStep.spawn [wUse, wx] _ _ _) ?_
  refine Relation.ReflTransGen.head (OStep.work [] [] wUse [wx] [] _) ?_
  exact Relation.ReflTransGen.refl

end GoMydumper
